import Mathlib

/-!
Verification of the compress-jpeg pipeline (src/lib.rs) against its
natural-language specification.  The Rust source is shallowly embedded:
f32 arithmetic is modelled by real numbers, the f32 quality/scale
computation on the quantization table by rational numbers, byte buffers
by lists of natural numbers, and the single place where the source can
index a Vec out of bounds (the initial reads of the RGBA buffer) by an
explicit panick outcome.
-/

namespace CompressJpeg

noncomputable section

/-- RGBA raster image: width, height and the flat interleaved byte
buffer, translating the Rust struct ImageData (src/lib.rs lines 5-10).
Bytes are modelled as natural numbers. -/
structure ImageData where
  width : ℕ
  height : ℕ
  data : List ℕ
deriving DecidableEq

/-- Error kinds named by the specification.  The Rust signature returns
a Result whose error side is never constructed by the source; these
constructors exist so that claims about returned errors can be stated. -/
inductive CompressError where
  | invalidDimensions
  | bufferSizeMismatch
deriving DecidableEq

/-- Outcome of one call to compress_jpeg: a returned image, a returned
error, or a Rust panick from out-of-bounds Vec indexing. -/
inductive CResult where
  | ok (img : ImageData)
  | err (e : CompressError)
  | panicked
deriving DecidableEq

/-- Luma plane from the RGBA buffer (src/lib.rs lines 50-60): the pixel
at (y, x) reads bytes idx, idx+1, idx+2 with idx = (y*width + x)*4.
Reads are written with getD; compress guards them with readsInBounds,
which captures exactly the condition under which the Rust loop indexes
data out of bounds and panicks. -/
def yMatrix (data : List ℕ) (w : ℕ) : ℕ → ℕ → ℝ := fun y x =>
  let idx := (y * w + x) * 4;
  let r : ℝ := data.getD idx 0;
  let g : ℝ := data.getD (idx + 1) 0;
  let b : ℝ := data.getD (idx + 2) 0;
  0.299 * r + 0.587 * g + 0.114 * b

/-- Cb plane from the RGBA buffer (src/lib.rs line 57). -/
def cbMatrix (data : List ℕ) (w : ℕ) : ℕ → ℕ → ℝ := fun y x =>
  let idx := (y * w + x) * 4;
  let r : ℝ := data.getD idx 0;
  let g : ℝ := data.getD (idx + 1) 0;
  let b : ℝ := data.getD (idx + 2) 0;
  -0.168736 * r - 0.331264 * g + 0.5 * b + 128

/-- Cr plane from the RGBA buffer (src/lib.rs line 58). -/
def crMatrix (data : List ℕ) (w : ℕ) : ℕ → ℕ → ℝ := fun y x =>
  let idx := (y * w + x) * 4;
  let r : ℝ := data.getD idx 0;
  let g : ℝ := data.getD (idx + 1) 0;
  let b : ℝ := data.getD (idx + 2) 0;
  0.5 * r - 0.418688 * g - 0.081312 * b + 128

/-- Subsampled chroma width, src/lib.rs line 62: integer (floor)
division by two. -/
def subsampledW (w : ℕ) : ℕ := w / 2

/-- Subsampled chroma height, src/lib.rs line 63. -/
def subsampledH (h : ℕ) : ℕ := h / 2

/-- Chroma downsampling (src/lib.rs lines 66-71): the output sample at
(y, x) copies the source plane at (y*2, x*2). -/
def subsample (m : ℕ → ℕ → ℝ) : ℕ → ℕ → ℝ := fun y x => m (y * 2) (x * 2)

/-- Standard luminance base quantization matrix (src/lib.rs lines
73-82), stored row-major. -/
def stdQuantRows : List (List ℕ) :=
  [[16, 11, 10, 16, 24, 40, 51, 61],
   [12, 12, 14, 19, 26, 58, 60, 55],
   [14, 13, 16, 24, 40, 57, 69, 56],
   [14, 17, 22, 29, 51, 87, 80, 62],
   [18, 22, 37, 56, 68, 109, 103, 77],
   [24, 35, 55, 64, 81, 104, 113, 92],
   [49, 64, 78, 87, 103, 121, 120, 101],
   [72, 92, 95, 98, 112, 100, 103, 99]]

/-- Entry (u, v) of the base quantization matrix. -/
def stdQuant (u v : ℕ) : ℕ := (stdQuantRows.getD u []).getD v 0

/-- Quantization scale from the caller-supplied quality value
(src/lib.rs lines 84-88): piecewise 5000/q below 50, else 200 - 2q,
then divided by 100.  The f32 arithmetic is modelled over the
rationals. -/
def quantScale (quality : ℚ) : ℚ :=
  (if quality < 50 then 5000 / quality else 200 - quality * 2) / 100

/-- Quantization table entry (src/lib.rs lines 90-92): floor of the
scaled base entry, then forced to at least one. -/
def quantEntry (quality : ℚ) (u v : ℕ) : ℕ :=
  (max 1 (Int.floor ((stdQuant u v : ℚ) * quantScale quality))).toNat

/-- Modelled from the spec: the quantization entry the claim describes,
with the linear scale 1 + 20*c on a distortion factor c.  This
definition exists only to compare the claimed formula with the one the
source computes. -/
def specQuantEntry (c : ℚ) (u v : ℕ) : ℕ :=
  (max 1 (Int.floor ((stdQuant u v : ℚ) * (1 + 20 * c)))).toNat

/-- DCT normalization constant (src/lib.rs lines 157-158 and 172-173):
1 over the square root of two at index zero, else one. -/
def cc (u : ℕ) : ℝ := if u = 0 then 1 / Real.sqrt 2 else 1

/-- Cosine basis factor cos((2x+1) u pi / 16) shared by the forward and
inverse transforms (src/lib.rs lines 153-154 and 175-176). -/
def dctCos (x u : ℕ) : ℝ :=
  Real.cos ((2 * (x : ℝ) + 1) * (u : ℝ) * Real.pi / 16)

/-- Forward 8x8 type-II DCT (src/lib.rs lines 145-163). -/
def dct2d (B : ℕ → ℕ → ℝ) : ℕ → ℕ → ℝ := fun u v =>
  0.25 * cc u * cc v *
    ∑ x in Finset.range 8, ∑ y in Finset.range 8, B x y * dctCos x u * dctCos y v

/-- Inverse 8x8 DCT (src/lib.rs lines 165-183). -/
def idct2d (D : ℕ → ℕ → ℝ) : ℕ → ℕ → ℝ := fun x y =>
  0.25 * ∑ u in Finset.range 8, ∑ v in Finset.range 8,
    cc u * cc v * D u v * dctCos x u * dctCos y v

/-- Round of Rust f32: nearest integer with ties away from zero. -/
def rustRound (x : ℝ) : ℤ :=
  if x < 0 then -Int.floor (-x + 1 / 2) else Int.floor (x + 1 / 2)

/-- Quantize and dequantize one coefficient (src/lib.rs lines 117-127):
divide by the table entry, round, multiply the table entry back. -/
def quantDequant (q : ℕ → ℕ → ℕ) (D : ℕ → ℕ → ℝ) : ℕ → ℕ → ℝ := fun u v =>
  (rustRound (D u v / (q u v : ℝ)) : ℝ) * (q u v : ℝ)

/-- Load of one 8x8 block starting at plane position (i, j)
(src/lib.rs lines 104-113): in-bounds samples are copied, samples past
the plane boundary keep the initial value zero. -/
def loadBlock (channel : ℕ → ℕ → ℝ) (height width i j : ℕ) : ℕ → ℕ → ℝ := fun u v =>
  if i + u < height ∧ j + v < width then channel (i + u) (j + v) else 0

/-- Per-plane block pipeline (src/lib.rs lines 94-143).  The imperative
code tiles the plane by steps of 8 and writes back only in-bounds
positions of an initially zero plane; the in-bounds position (y, x)
belongs to exactly one tile, the one starting at (8*(y/8), 8*(x/8)),
and receives the inverse transform of the quantized forward transform
of that tile at offset (y mod 8, x mod 8). -/
def processBlocks (channel : ℕ → ℕ → ℝ) (width height : ℕ) (q : ℕ → ℕ → ℕ) :
    ℕ → ℕ → ℝ := fun y x =>
  if y < height ∧ x < width then
    idct2d (quantDequant q (dct2d (loadBlock channel height width (8 * (y / 8)) (8 * (x / 8)))))
      (y % 8) (x % 8)
  else 0

/-- Chroma upsampling (src/lib.rs lines 189-200): position (y, x) reads
the processed subsampled plane at (y/2, x/2) when those coordinates are
inside the subsampled plane, and otherwise keeps the initial zero. -/
def upsample (proc : ℕ → ℕ → ℝ) (subsH subsW : ℕ) : ℕ → ℕ → ℝ := fun y x =>
  if y / 2 < subsH ∧ x / 2 < subsW then proc (y / 2) (x / 2) else 0

/-- Output byte (src/lib.rs lines 212-214): f32 round, clamp to
[0, 255], cast to u8. -/
def toByte (v : ℝ) : ℕ := (max 0 (min 255 (rustRound v))).toNat

/-- The four output bytes of one pixel (src/lib.rs lines 205-215):
inverse color transform of the processed planes, alpha written as
255. -/
def pixelBytes (yP cbU crU : ℕ → ℕ → ℝ) (y x : ℕ) : List ℕ :=
  let yv := yP y x
  let cbv := cbU y x - 128
  let crv := crU y x - 128
  [toByte (yv + 1.402 * crv),
   toByte (yv - 0.344136 * cbv - 0.714136 * crv),
   toByte (yv + 1.772 * cbv),
   255]

/-- Output buffer (src/lib.rs lines 202-217): the loops over y then x
write the four bytes of each pixel at consecutive positions
(y*width + x)*4 .. +3, which is exactly the row-major concatenation of
the per-pixel byte groups. -/
def outputData (w h : ℕ) (yP cbU crU : ℕ → ℕ → ℝ) : List ℕ :=
  (List.range h).flatMap fun y =>
    (List.range w).flatMap fun x => pixelBytes yP cbU crU y x

/-- The full pipeline on the success path of compress_jpeg
(src/lib.rs lines 42-224). -/
def compressOk (img : ImageData) (quality : ℚ) : ImageData :=
  let w := img.width
  let h := img.height
  let q := quantEntry quality
  let yP := processBlocks (yMatrix img.data w) w h q
  let cbP := processBlocks (subsample (cbMatrix img.data w)) (subsampledW w) (subsampledH h) q
  let crP := processBlocks (subsample (crMatrix img.data w)) (subsampledW w) (subsampledH h) q
  let cbU := upsample cbP (subsampledH h) (subsampledW w)
  let crU := upsample crP (subsampledH h) (subsampledW w)
  ⟨w, h, outputData w h yP cbU crU⟩

/-- The reads data[idx], data[idx+1], data[idx+2] in the color loop
(src/lib.rs lines 50-60) are the only Vec accesses of the source whose
indices are not forced in bounds by a surrounding check; this predicate
states that they all stay inside the buffer. -/
def readsInBounds (img : ImageData) : Prop :=
  ∀ y < img.height, ∀ x < img.width, (y * img.width + x) * 4 + 2 < img.data.length

instance : DecidablePred readsInBounds := fun img =>
  inferInstanceAs
    (Decidable (∀ y < img.height, ∀ x < img.width, (y * img.width + x) * 4 + 2 < img.data.length))

/-- Full model of compress_jpeg: the source performs no validation, so
the call either panicks on an out-of-bounds buffer read or returns the
pipeline output; no error value is ever produced. -/
def compress (img : ImageData) (quality : ℚ) : CResult :=
  if readsInBounds img then CResult.ok (compressOk img quality) else CResult.panicked

/-- A structurally valid image in the sense of the specification: the
buffer length matches width*height*4. -/
def valid (img : ImageData) : Prop :=
  img.data.length = img.width * img.height * 4

instance : DecidablePred valid := fun img =>
  inferInstanceAs (Decidable (img.data.length = img.width * img.height * 4))

end

section BufferLemmas

/-- Length of a concatenation of constant-length groups. -/
theorem flatMap_range_length (f : ℕ → List ℕ) (k n : ℕ) (hk : ∀ i, (f i).length = k) :
    ((List.range n).flatMap f).length = n * k := by
  induction n with
  | zero => simp
  | succ m ih =>
    rw [List.range_succ, List.flatMap_append, List.length_append, ih]
    simp only [List.flatMap_cons, List.flatMap_nil, List.append_nil, hk]
    ring

/-- Indexing into a concatenation of constant-length groups. -/
theorem flatMap_range_getElem (f : ℕ → List ℕ) (k n i j : ℕ) (hk : ∀ i, (f i).length = k)
    (hi : i < n) (hj : j < k) :
    ((List.range n).flatMap f)[i * k + j]? = (f i)[j]? := by
  induction n with
  | zero => omega
  | succ m ih =>
    rw [List.range_succ, List.flatMap_append]
    rcases Nat.lt_or_ge i m with hlt | hge
    · have hlen : i * k + j < ((List.range m).flatMap f).length := by
        rw [flatMap_range_length f k m hk]
        have e1 : (i + 1) * k = i * k + k := Nat.succ_mul i k
        have e2 : (i + 1) * k ≤ m * k := Nat.mul_le_mul_right k (by omega)
        omega
      rw [List.getElem?_append, if_pos hlen]
      exact ih hlt
    · have hieq : i = m := by omega
      subst hieq
      have hlen : ((List.range i).flatMap f).length ≤ i * k + j := by
        rw [flatMap_range_length f k i hk]; omega
      rw [List.getElem?_append_right hlen, flatMap_range_length f k i hk]
      simp only [List.flatMap_cons, List.flatMap_nil, List.append_nil]
      congr 1
      omega

/-- The output buffer has one 4-byte group per pixel, in row-major
order. -/
theorem outputData_getElem (w h : ℕ) (yP cbU crU : ℕ → ℕ → ℝ) (y x c : ℕ)
    (hy : y < h) (hx : x < w) (hc : c < 4) :
    (outputData w h yP cbU crU)[(y * w + x) * 4 + c]? = (pixelBytes yP cbU crU y x)[c]? := by
  unfold outputData
  have hidx : (y * w + x) * 4 + c = y * (w * 4) + (x * 4 + c) := by ring
  have hj : x * 4 + c < w * 4 := by
    have e1 : (x + 1) * 4 = x * 4 + 4 := Nat.succ_mul x 4
    have e2 : (x + 1) * 4 ≤ w * 4 := Nat.mul_le_mul_right 4 (by omega)
    omega
  have hkInner : ∀ y2, ((List.range w).flatMap fun x2 => pixelBytes yP cbU crU y2 x2).length = w * 4 :=
    fun y2 => flatMap_range_length (fun x2 => pixelBytes yP cbU crU y2 x2) 4 w (fun x2 => rfl)
  rw [hidx, flatMap_range_getElem
    (fun y2 => (List.range w).flatMap fun x2 => pixelBytes yP cbU crU y2 x2)
    (w * 4) h y (x * 4 + c) hkInner hy hj]
  exact flatMap_range_getElem (fun x2 => pixelBytes yP cbU crU y x2) 4 w x c (fun x2 => rfl) hx hc

/-- Length of the output buffer. -/
theorem outputData_length (w h : ℕ) (yP cbU crU : ℕ → ℕ → ℝ) :
    (outputData w h yP cbU crU).length = h * (w * 4) :=
  flatMap_range_length (fun y2 => (List.range w).flatMap fun x2 => pixelBytes yP cbU crU y2 x2)
    (w * 4) h
    (fun y2 => flatMap_range_length (fun x2 => pixelBytes yP cbU crU y2 x2) 4 w (fun x2 => rfl))

/-- Every fourth byte of the output buffer, at offset 3 of its pixel
group, is 255. -/
theorem outputData_alpha (w h : ℕ) (yP cbU crU : ℕ → ℕ → ℝ) (p : ℕ) (hp : p < w * h) :
    (outputData w h yP cbU crU)[4 * p + 3]? = some 255 := by
  have hw : 0 < w := by
    rcases Nat.eq_zero_or_pos w with h0 | h0
    · subst h0; omega
    · exact h0
  have hx : p % w < w := Nat.mod_lt p hw
  have hy : p / w < h := by
    rw [Nat.div_lt_iff_lt_mul hw]
    have hcomm2 : w * h = h * w := Nat.mul_comm w h
    omega
  have hpx : w * (p / w) + p % w = p := Nat.div_add_mod p w
  have hcomm : (p / w) * w = w * (p / w) := Nat.mul_comm _ _
  have hidx : 4 * p + 3 = ((p / w) * w + p % w) * 4 + 3 := by omega
  rw [hidx, outputData_getElem w h yP cbU crU (p / w) (p % w) 3 hy hx (by omega)]
  rfl

/-- A buffer of the exact advertised length keeps all three color reads
of every pixel in bounds. -/
theorem valid_readsInBounds (img : ImageData) (h : valid img) : readsInBounds img := by
  intro y hy x hx
  have h1 : y * img.width + x < img.height * img.width := by
    calc y * img.width + x < y * img.width + img.width := by omega
      _ = (y + 1) * img.width := by ring
      _ ≤ img.height * img.width := Nat.mul_le_mul_right img.width (by omega)
  have h2 : img.height * img.width = img.width * img.height := Nat.mul_comm _ _
  unfold valid at h
  omega

/-- On a valid image compress takes the success branch. -/
theorem compress_eq_ok (img : ImageData) (q : ℚ) (h : valid img) :
    compress img q = CResult.ok (compressOk img q) := by
  unfold compress
  rw [if_pos (valid_readsInBounds img h)]

end BufferLemmas

section DCTOrthogonality

/-- Cosine of an integer multiple of pi. -/
theorem cos_nat_pi (n : ℕ) : Real.cos ((n : ℝ) * Real.pi) = (-1) ^ n := by
  induction n with
  | zero => simp
  | succ m ih =>
    have e : ((m + 1 : ℕ) : ℝ) * Real.pi = (m : ℝ) * Real.pi + Real.pi := by
      push_cast; ring
    rw [e, Real.cos_add, Real.cos_pi, Real.sin_pi, ih]
    ring

/-- Telescoping identity for the Dirichlet-style cosine sum of the
eight block offsets. -/
theorem sum_cos_telescope (θ : ℝ) :
    2 * Real.sin (θ / 2) * (∑ u in Finset.range 8, Real.cos ((u : ℝ) * θ)) =
    Real.sin (15 * θ / 2) + Real.sin (θ / 2) := by
  have key : ∀ u : ℕ, 2 * Real.sin (θ / 2) * Real.cos ((u : ℝ) * θ) =
      Real.sin ((2 * ((u + 1 : ℕ) : ℝ) - 1) * θ / 2) -
      Real.sin ((2 * (u : ℝ) - 1) * θ / 2) := by
    intro u
    have e1 : (2 * ((u + 1 : ℕ) : ℝ) - 1) * θ / 2 = (u : ℝ) * θ + θ / 2 := by
      push_cast; ring
    have e2 : (2 * (u : ℝ) - 1) * θ / 2 = (u : ℝ) * θ - θ / 2 := by ring
    rw [e1, e2, Real.sin_add, Real.sin_sub]
    ring
  calc 2 * Real.sin (θ / 2) * (∑ u in Finset.range 8, Real.cos ((u : ℝ) * θ))
      = ∑ u in Finset.range 8, 2 * Real.sin (θ / 2) * Real.cos ((u : ℝ) * θ) :=
        Finset.mul_sum _ _ _
    _ = ∑ u in Finset.range 8,
          (Real.sin ((2 * ((u + 1 : ℕ) : ℝ) - 1) * θ / 2) -
           Real.sin ((2 * (u : ℝ) - 1) * θ / 2)) :=
        Finset.sum_congr rfl fun u _ => key u
    _ = Real.sin ((2 * ((8 : ℕ) : ℝ) - 1) * θ / 2) -
        Real.sin ((2 * ((0 : ℕ) : ℝ) - 1) * θ / 2) :=
        Finset.sum_range_sub (fun t : ℕ => Real.sin ((2 * (t : ℝ) - 1) * θ / 2)) 8
    _ = Real.sin (15 * θ / 2) + Real.sin (θ / 2) := by
        rw [show (2 * ((8 : ℕ) : ℝ) - 1) * θ / 2 = 15 * θ / 2 by push_cast; ring,
          show (2 * ((0 : ℕ) : ℝ) - 1) * θ / 2 = -(θ / 2) by push_cast; ring,
          Real.sin_neg]
        ring

/-- Value of the cosine sum over the eight offsets at frequency
n*pi/8, for n between 1 and 15: it is 1 for odd n and 0 for even n. -/
theorem sum_cos_eval (n : ℕ) (h1 : 1 ≤ n) (h2 : n ≤ 15) :
    ∑ u in Finset.range 8, Real.cos ((u : ℝ) * ((n : ℝ) * Real.pi / 8)) =
    if n % 2 = 1 then 1 else 0 := by
  set θ : ℝ := (n : ℝ) * Real.pi / 8 with hθ
  have hhalf : θ / 2 = (n : ℝ) * Real.pi / 16 := by rw [hθ]; ring
  have hnR : (1 : ℝ) ≤ (n : ℝ) := by exact_mod_cast h1
  have hnR2 : (n : ℝ) ≤ 15 := by exact_mod_cast h2
  have hpi := Real.pi_pos
  have hspos : 0 < Real.sin (θ / 2) := by
    rw [hhalf]
    apply Real.sin_pos_of_pos_of_lt_pi
    · nlinarith
    · nlinarith
  have htel := sum_cos_telescope θ
  have h15 : Real.sin (15 * θ / 2) = -((-1 : ℝ) ^ n) * Real.sin (θ / 2) := by
    have e1 : 15 * θ / 2 = (n : ℝ) * Real.pi - (n : ℝ) * Real.pi / 16 := by
      rw [hθ]; ring
    rw [e1, Real.sin_sub, Real.sin_nat_mul_pi, cos_nat_pi, hhalf]
    ring
  rw [h15] at htel
  have hne : 2 * Real.sin (θ / 2) ≠ 0 := mul_ne_zero two_ne_zero (ne_of_gt hspos)
  apply mul_left_cancel₀ hne
  rw [htel]
  rcases Nat.even_or_odd n with he | ho
  · have hm : n % 2 = 0 := Nat.even_iff.mp he
    rw [he.neg_one_pow, if_neg (by omega)]
    ring
  · have hm : n % 2 = 1 := Nat.odd_iff.mp ho
    rw [ho.neg_one_pow, if_pos hm]
    ring

/-- Orthogonality kernel of the weighted cosine basis used by the
source transforms: summing cc(u)^2 cos((2x+1)u pi/16) cos((2z+1)u pi/16)
over the eight frequencies gives 4 on the diagonal and 0 elsewhere. -/
theorem dct_kernel (x z : ℕ) (hx : x < 8) (hz : z < 8) :
    ∑ u in Finset.range 8, cc u ^ 2 * (dctCos x u * dctCos z u) =
    if x = z then 4 else 0 := by
  have prodsum : ∀ u : ℕ, dctCos x u * dctCos z u =
      (Real.cos ((u : ℝ) * (((x : ℝ) - (z : ℝ)) * Real.pi / 8)) +
       Real.cos ((u : ℝ) * (((x : ℝ) + (z : ℝ) + 1) * Real.pi / 8))) / 2 := by
    intro u
    unfold dctCos
    have hA := Real.cos_sub ((2 * (x : ℝ) + 1) * (u : ℝ) * Real.pi / 16)
      ((2 * (z : ℝ) + 1) * (u : ℝ) * Real.pi / 16)
    have hB := Real.cos_add ((2 * (x : ℝ) + 1) * (u : ℝ) * Real.pi / 16)
      ((2 * (z : ℝ) + 1) * (u : ℝ) * Real.pi / 16)
    rw [show (2 * (x : ℝ) + 1) * (u : ℝ) * Real.pi / 16 -
        (2 * (z : ℝ) + 1) * (u : ℝ) * Real.pi / 16 =
        (u : ℝ) * (((x : ℝ) - (z : ℝ)) * Real.pi / 8) by ring] at hA
    rw [show (2 * (x : ℝ) + 1) * (u : ℝ) * Real.pi / 16 +
        (2 * (z : ℝ) + 1) * (u : ℝ) * Real.pi / 16 =
        (u : ℝ) * (((x : ℝ) + (z : ℝ) + 1) * Real.pi / 8) by ring] at hB
    linarith
  have hP0 : dctCos x 0 * dctCos z 0 = 1 := by
    unfold dctCos
    push_cast
    norm_num
  have hcc0 : cc 0 ^ 2 = 1 / 2 := by
    unfold cc
    rw [if_pos rfl, div_pow, one_pow, Real.sq_sqrt (by norm_num : (0 : ℝ) ≤ 2)]
  have hccS : ∀ u : ℕ, cc (u + 1) ^ 2 = 1 := by
    intro u
    unfold cc
    rw [if_neg (Nat.succ_ne_zero u)]
    norm_num
  have hsplit : ∑ u in Finset.range 8, cc u ^ 2 * (dctCos x u * dctCos z u) =
      (∑ u in Finset.range 8, dctCos x u * dctCos z u) - 1 / 2 := by
    rw [Finset.sum_range_succ' (fun u => cc u ^ 2 * (dctCos x u * dctCos z u)) 7,
      Finset.sum_range_succ' (fun u => dctCos x u * dctCos z u) 7]
    simp only [hccS, one_mul, hcc0, hP0]
    ring
  have hps : ∑ u in Finset.range 8, dctCos x u * dctCos z u =
      ((∑ u in Finset.range 8, Real.cos ((u : ℝ) * (((x : ℝ) - (z : ℝ)) * Real.pi / 8))) +
       (∑ u in Finset.range 8,
         Real.cos ((u : ℝ) * (((x : ℝ) + (z : ℝ) + 1) * Real.pi / 8)))) / 2 := by
    calc ∑ u in Finset.range 8, dctCos x u * dctCos z u
        = ∑ u in Finset.range 8,
            ((Real.cos ((u : ℝ) * (((x : ℝ) - (z : ℝ)) * Real.pi / 8)) +
              Real.cos ((u : ℝ) * (((x : ℝ) + (z : ℝ) + 1) * Real.pi / 8))) / 2) :=
          Finset.sum_congr rfl fun u _ => prodsum u
      _ = _ := by
          rw [← Finset.sum_div, Finset.sum_add_distrib]
  have hcast2 : ((x : ℝ) + (z : ℝ) + 1) = ((x + z + 1 : ℕ) : ℝ) := by push_cast; ring
  have hssum : ∑ u in Finset.range 8,
      Real.cos ((u : ℝ) * (((x : ℝ) + (z : ℝ) + 1) * Real.pi / 8)) =
      if (x + z + 1) % 2 = 1 then 1 else 0 := by
    calc ∑ u in Finset.range 8, Real.cos ((u : ℝ) * (((x : ℝ) + (z : ℝ) + 1) * Real.pi / 8))
        = ∑ u in Finset.range 8,
            Real.cos ((u : ℝ) * (((x + z + 1 : ℕ) : ℝ) * Real.pi / 8)) :=
          Finset.sum_congr rfl fun u _ => by rw [hcast2]
      _ = _ := sum_cos_eval (x + z + 1) (by omega) (by omega)
  rw [hsplit, hps, hssum]
  rcases eq_or_ne x z with heq | hne
  · subst heq
    have hd : ∑ u in Finset.range 8,
        Real.cos ((u : ℝ) * (((x : ℝ) - (x : ℝ)) * Real.pi / 8)) = 8 := by
      calc ∑ u in Finset.range 8, Real.cos ((u : ℝ) * (((x : ℝ) - (x : ℝ)) * Real.pi / 8))
          = ∑ u in Finset.range 8, (1 : ℝ) :=
            Finset.sum_congr rfl fun u _ => by
              rw [show (u : ℝ) * (((x : ℝ) - (x : ℝ)) * Real.pi / 8) = 0 by ring,
                Real.cos_zero]
        _ = 8 := by simp
    have hpar : (x + x + 1) % 2 = 1 := by omega
    rw [hd, if_pos hpar, if_pos rfl]
    norm_num
  · have habs : ∃ e : ℕ, 1 ≤ e ∧ e ≤ 7 ∧ (e + (x + z + 1)) % 2 = 1 ∧
        (∀ u : ℕ, Real.cos ((u : ℝ) * (((x : ℝ) - (z : ℝ)) * Real.pi / 8)) =
          Real.cos ((u : ℝ) * ((e : ℝ) * Real.pi / 8))) := by
      rcases Nat.lt_or_ge x z with hlt | hge
      · refine ⟨z - x, by omega, by omega, by omega, fun u => ?_⟩
        have hc : ((x : ℝ) - (z : ℝ)) = -(((z - x : ℕ) : ℝ)) := by
          rw [Nat.cast_sub (le_of_lt hlt)]
          ring
        rw [hc, show (u : ℝ) * (-(((z - x : ℕ) : ℝ)) * Real.pi / 8) =
          -((u : ℝ) * (((z - x : ℕ) : ℝ) * Real.pi / 8)) by ring, Real.cos_neg]
      · refine ⟨x - z, by omega, by omega, by omega, fun u => ?_⟩
        rw [show ((x : ℝ) - (z : ℝ)) = (((x - z : ℕ) : ℝ)) by
          rw [Nat.cast_sub hge]]
    obtain ⟨e, he1, he7, hpar, hcoseq⟩ := habs
    have hdsum : ∑ u in Finset.range 8,
        Real.cos ((u : ℝ) * (((x : ℝ) - (z : ℝ)) * Real.pi / 8)) =
        if e % 2 = 1 then 1 else 0 := by
      calc ∑ u in Finset.range 8, Real.cos ((u : ℝ) * (((x : ℝ) - (z : ℝ)) * Real.pi / 8))
          = ∑ u in Finset.range 8, Real.cos ((u : ℝ) * ((e : ℝ) * Real.pi / 8)) :=
            Finset.sum_congr rfl fun u _ => hcoseq u
        _ = _ := sum_cos_eval e he1 (by omega)
    rw [hdsum, if_neg hne]
    rcases Nat.even_or_odd e with he | ho
    · have hm0 : e % 2 = 0 := Nat.even_iff.mp he
      rw [if_neg (by omega), if_pos (by omega)]
      norm_num
    · have hm1 : e % 2 = 1 := Nat.odd_iff.mp ho
      rw [if_pos hm1, if_neg (by omega)]
      norm_num

/-- Separation of a quadruple sum into a product of two independent
sums. -/
theorem quad_separate (c F G : ℕ → ℕ → ℝ) (s : Finset ℕ) :
    ∑ u in s, ∑ v in s, ∑ a in s, ∑ b in s, c a b * F a u * G b v
    = ∑ a in s, ∑ b in s, c a b * (∑ u in s, F a u) * (∑ v in s, G b v) := by
  calc ∑ u in s, ∑ v in s, ∑ a in s, ∑ b in s, c a b * F a u * G b v
      = ∑ u in s, ∑ a in s, ∑ v in s, ∑ b in s, c a b * F a u * G b v := by
        exact Finset.sum_congr rfl fun u _ => Finset.sum_comm
    _ = ∑ a in s, ∑ u in s, ∑ v in s, ∑ b in s, c a b * F a u * G b v :=
        Finset.sum_comm
    _ = ∑ a in s, ∑ u in s, ∑ b in s, ∑ v in s, c a b * F a u * G b v := by
        exact Finset.sum_congr rfl fun a _ => Finset.sum_congr rfl fun u _ => Finset.sum_comm
    _ = ∑ a in s, ∑ b in s, ∑ u in s, ∑ v in s, c a b * F a u * G b v := by
        exact Finset.sum_congr rfl fun a _ => Finset.sum_comm
    _ = ∑ a in s, ∑ b in s, c a b * (∑ u in s, F a u) * (∑ v in s, G b v) := by
        refine Finset.sum_congr rfl fun a _ => Finset.sum_congr rfl fun b _ => ?_
        symm
        calc c a b * (∑ u in s, F a u) * (∑ v in s, G b v)
            = c a b * ((∑ u in s, F a u) * (∑ v in s, G b v)) := by ring
          _ = c a b * (∑ u in s, ∑ v in s, F a u * G b v) := by
              rw [Finset.sum_mul_sum]
          _ = ∑ u in s, ∑ v in s, c a b * (F a u * G b v) := by
              simp only [Finset.mul_sum]
          _ = ∑ u in s, ∑ v in s, c a b * F a u * G b v :=
              Finset.sum_congr rfl fun u _ => Finset.sum_congr rfl fun v _ => by ring

/-- The inverse transform of the source is the exact mathematical
inverse of its forward transform over the real numbers, on the 8x8
index range the transforms read. -/
theorem idct_dct_inv (B : ℕ → ℕ → ℝ) (x y : ℕ) (hx : x < 8) (hy : y < 8) :
    idct2d (dct2d B) x y = B x y := by
  simp only [idct2d, dct2d]
  have expand : ∀ u v : ℕ,
      cc u * cc v *
        (0.25 * cc u * cc v *
          ∑ a in Finset.range 8, ∑ b in Finset.range 8, B a b * dctCos a u * dctCos b v) *
        dctCos x u * dctCos y v
      = ∑ a in Finset.range 8, ∑ b in Finset.range 8,
          0.25 * B a b * (cc u ^ 2 * (dctCos a u * dctCos x u)) *
            (cc v ^ 2 * (dctCos b v * dctCos y v)) := by
    intro u v
    calc cc u * cc v *
          (0.25 * cc u * cc v *
            ∑ a in Finset.range 8, ∑ b in Finset.range 8, B a b * dctCos a u * dctCos b v) *
          dctCos x u * dctCos y v
        = (0.25 * cc u ^ 2 * cc v ^ 2 * dctCos x u * dctCos y v) *
            ∑ a in Finset.range 8, ∑ b in Finset.range 8, B a b * dctCos a u * dctCos b v := by
          ring
      _ = ∑ a in Finset.range 8, ∑ b in Finset.range 8,
            (0.25 * cc u ^ 2 * cc v ^ 2 * dctCos x u * dctCos y v) *
              (B a b * dctCos a u * dctCos b v) := by
          simp only [Finset.mul_sum]
      _ = ∑ a in Finset.range 8, ∑ b in Finset.range 8,
            0.25 * B a b * (cc u ^ 2 * (dctCos a u * dctCos x u)) *
              (cc v ^ 2 * (dctCos b v * dctCos y v)) :=
          Finset.sum_congr rfl fun a _ => Finset.sum_congr rfl fun b _ => by ring
  have hcollapse : ∑ a in Finset.range 8, ∑ b in Finset.range 8,
      0.25 * B a b * (∑ u in Finset.range 8, cc u ^ 2 * (dctCos a u * dctCos x u)) *
        (∑ v in Finset.range 8, cc v ^ 2 * (dctCos b v * dctCos y v)) = 4 * B x y := by
    rw [Finset.sum_eq_single x]
    · rw [Finset.sum_eq_single y]
      · rw [dct_kernel x x hx hx, dct_kernel y y hy hy, if_pos rfl, if_pos rfl]
        ring
      · intro b hb hbne
        rw [dct_kernel b y (Finset.mem_range.mp hb) hy, if_neg hbne, mul_zero]
      · intro hymem
        exact absurd (Finset.mem_range.mpr hy) hymem
    · intro a ha hane
      apply Finset.sum_eq_zero
      intro b hb
      rw [dct_kernel a x (Finset.mem_range.mp ha) hx, if_neg hane, mul_zero, zero_mul]
    · intro hxmem
      exact absurd (Finset.mem_range.mpr hx) hxmem
  calc (0.25 : ℝ) * ∑ u in Finset.range 8, ∑ v in Finset.range 8,
        cc u * cc v *
          (0.25 * cc u * cc v *
            ∑ a in Finset.range 8, ∑ b in Finset.range 8, B a b * dctCos a u * dctCos b v) *
          dctCos x u * dctCos y v
      = 0.25 * ∑ u in Finset.range 8, ∑ v in Finset.range 8, ∑ a in Finset.range 8,
          ∑ b in Finset.range 8,
          0.25 * B a b * (cc u ^ 2 * (dctCos a u * dctCos x u)) *
            (cc v ^ 2 * (dctCos b v * dctCos y v)) := by
        rw [Finset.sum_congr rfl fun u _ => Finset.sum_congr rfl fun v _ => expand u v]
    _ = 0.25 * ∑ a in Finset.range 8, ∑ b in Finset.range 8,
          0.25 * B a b * (∑ u in Finset.range 8, cc u ^ 2 * (dctCos a u * dctCos x u)) *
            (∑ v in Finset.range 8, cc v ^ 2 * (dctCos b v * dctCos y v)) := by
        rw [quad_separate (fun a b => 0.25 * B a b)
          (fun a u => cc u ^ 2 * (dctCos a u * dctCos x u))
          (fun b v => cc v ^ 2 * (dctCos b v * dctCos y v)) (Finset.range 8)]
    _ = 0.25 * (4 * B x y) := by rw [hcollapse]
    _ = B x y := by ring

end DCTOrthogonality

section Claims

/-- C1 counterexample: compress_jpeg performs no input validation.  At
width 0 (height 5) it returns Ok with an empty buffer instead of the
error InvalidDimensions, and at a 1x1 image whose buffer has length
width*height*4 - 1 = 3 it returns Ok instead of the error
BufferSizeMismatch. -/
theorem c1_counterexample :
    compress ⟨0, 5, []⟩ 50 = CResult.ok ⟨0, 5, []⟩ ∧
    compress ⟨1, 1, [10, 20, 30]⟩ 50 = CResult.ok (compressOk ⟨1, 1, [10, 20, 30]⟩ 50) := by
  exact ⟨rfl, rfl⟩

/-- C1 (amended): compress_jpeg validates nothing and never returns an
error value; the call panicks exactly when the pixel buffer is too
short for the color-transform reads, namely when its length is at most
width*height*4 - 2, and otherwise returns Ok with the recomputed
image. -/
theorem c1_amended (img : ImageData) (q : ℚ) :
    (compress img q = CResult.panicked ↔
      img.data.length + 1 < 4 * (img.width * img.height)) ∧
    (∀ e, compress img q ≠ CResult.err e) := by
  obtain ⟨w, h, d⟩ := img
  dsimp only
  by_cases hr : readsInBounds (⟨w, h, d⟩ : ImageData)
  · refine ⟨⟨fun hp => absurd hp (by simp [compress, hr]), fun hlen => ?_⟩,
      fun e => by simp [compress, hr]⟩
    exfalso
    rcases Nat.eq_zero_or_pos w with hw | hw
    · rw [hw] at hlen; omega
    rcases Nat.eq_zero_or_pos h with hh | hh
    · rw [hh] at hlen; omega
    have hspec := hr (h - 1) (show h - 1 < h by omega) (w - 1) (show w - 1 < w by omega)
    dsimp only at hspec
    have e1 : (h - 1) * w = h * w - w := Nat.sub_one_mul h w
    have e2 : w ≤ h * w := Nat.le_mul_of_pos_left w hh
    have e3 : h * w = w * h := Nat.mul_comm h w
    omega
  · refine ⟨⟨fun _ => ?_, fun _ => by simp [compress, hr]⟩,
      fun e => by simp [compress, hr]⟩
    unfold readsInBounds at hr
    push_neg at hr
    obtain ⟨y, hy, x, hx, hread⟩ := hr
    dsimp only at hy hx hread
    have h1 : y * w + x < h * w := by
      calc y * w + x < y * w + w := by omega
        _ = (y + 1) * w := by ring
        _ ≤ h * w := Nat.mul_le_mul_right w (by omega)
    have e3 : h * w = w * h := Nat.mul_comm h w
    omega

/-- C3 counterexample: at input value 1 the source computes the scale
from the piecewise quality formula, giving table entry
floor(16 * 50) = 800 at position (0,0), while the claimed linear
formula 1 + 20*c gives max(1, floor(16 * 21)) = 336. -/
theorem c3_counterexample :
    quantEntry 1 0 0 = 800 ∧ specQuantEntry 1 0 0 = 336 ∧
    quantEntry 1 0 0 ≠ specQuantEntry 1 0 0 := by
  refine ⟨?_, ?_, ?_⟩
  · simp only [quantEntry, quantScale, stdQuant, stdQuantRows]
    norm_num
    rfl
  · simp only [specQuantEntry, stdQuant, stdQuantRows]
    norm_num
    rfl
  · simp only [quantEntry, specQuantEntry, quantScale, stdQuant, stdQuantRows]
    norm_num
    decide

/-- C3 (amended): the table entry is max(1, floor(base_entry * scale))
where the scale is the piecewise quality formula
(if q < 50 then 5000/q else 200 - 2q)/100 applied to the caller value
treated as a 0-100 quality, not the linear 1 + 20*c on a [0,1]
distortion factor; every entry is at least 1. -/
theorem c3_amended (q : ℚ) (u v : ℕ) :
    quantEntry q u v =
      (max 1 (Int.floor
        ((stdQuant u v : ℚ) * ((if q < 50 then 5000 / q else 200 - q * 2) / 100)))).toNat ∧
    1 ≤ quantEntry q u v := by
  refine ⟨rfl, ?_⟩
  unfold quantEntry
  have h1 : (1 : ℤ) ≤ max 1 (Int.floor ((stdQuant u v : ℚ) * quantScale q)) :=
    le_max_left _ _
  omega

/-- C4 counterexample: for a 1x1 plane holding the value 5 everywhere
in bounds, the loaded 8x8 block at offset (0,1) extends past the plane
and receives 0, not the nearest in-bounds sample 5: block loading
zero-fills, it does not edge-replicate. -/
theorem c4_counterexample :
    loadBlock (fun _ _ => (5 : ℝ)) 1 1 0 0 0 1 = 0 ∧ (0 : ℝ) ≠ 5 := by
  constructor
  · simp [loadBlock]
  · norm_num

/-- C4 (amended): when a block extends past the plane boundary the
out-of-range source samples are substituted with zero (not with the
nearest in-bounds sample), in-range samples are copied, and after the
inverse transform only in-bounds positions carry block values, all
other positions of the processed plane being zero. -/
theorem c4_amended (channel : ℕ → ℕ → ℝ) (w h i j u v y x : ℕ) (t : ℕ → ℕ → ℕ) :
    (i + u < h → j + v < w → loadBlock channel h w i j u v = channel (i + u) (j + v)) ∧
    (¬(i + u < h ∧ j + v < w) → loadBlock channel h w i j u v = 0) ∧
    (y < h → x < w → processBlocks channel w h t y x =
      idct2d (quantDequant t (dct2d (loadBlock channel h w (8 * (y / 8)) (8 * (x / 8)))))
        (y % 8) (x % 8)) ∧
    (¬(y < h ∧ x < w) → processBlocks channel w h t y x = 0) := by
  refine ⟨fun h1 h2 => ?_, fun h3 => ?_, fun h4 h5 => ?_, fun h6 => ?_⟩
  · simp [loadBlock, h1, h2]
  · simp only [loadBlock, if_neg h3]
  · simp only [processBlocks, if_pos (And.intro h4 h5)]
  · simp only [processBlocks, if_neg h6]

/-- C4 witness: the amended statement instantiated on a concrete 1x1
plane with all-ones quantization table. -/
theorem c4_witness :
    loadBlock (fun _ _ => (5 : ℝ)) 1 1 0 0 0 0 = (fun _ _ => (5 : ℝ)) (0 + 0) (0 + 0) ∧
    loadBlock (fun _ _ => (5 : ℝ)) 1 1 0 0 0 3 = 0 ∧
    processBlocks (fun _ _ => (5 : ℝ)) 1 1 (fun _ _ => 1) 0 0 =
      idct2d (quantDequant (fun _ _ => 1)
        (dct2d (loadBlock (fun _ _ => (5 : ℝ)) 1 1 (8 * (0 / 8)) (8 * (0 / 8))))) (0 % 8) (0 % 8) ∧
    processBlocks (fun _ _ => (5 : ℝ)) 1 1 (fun _ _ => 1) 2 0 = 0 := by
  obtain ⟨a1, a2, a3, a4⟩ :=
    c4_amended (fun _ _ => (5 : ℝ)) 1 1 0 0 0 0 0 0 (fun _ _ => 1)
  obtain ⟨b1, b2, b3, b4⟩ :=
    c4_amended (fun _ _ => (5 : ℝ)) 1 1 0 0 0 3 2 0 (fun _ _ => 1)
  exact ⟨a1 (by decide) (by decide), b2 (by decide),
    a3 (by decide) (by decide), b4 (by decide)⟩

/-- C5 counterexample: the subsampled chroma dimensions use floor
division, not ceiling: a plane of width 1 and height 1 subsamples to
width 0 and height 0, while the claimed ceil(1/2) is 1. -/
theorem c5_counterexample :
    subsampledW 1 = 0 ∧ subsampledH 1 = 0 ∧ (1 + 1) / 2 = 1 ∧
    subsampledW 1 ≠ (1 + 1) / 2 := by
  decide

/-- C5 (amended): the downsampled plane has dimensions floor(width/2)
by floor(height/2); within them the sample at (x, y) copies the source
at exactly (2x, 2y), which always lies in bounds, and on that range the
claimed min-clamped coordinate coincides with (2x, 2y). -/
theorem c5_amended (m : ℕ → ℕ → ℝ) (w h y x : ℕ)
    (hy : y < subsampledH h) (hx : x < subsampledW w) :
    subsample m y x = m (y * 2) (x * 2) ∧ y * 2 < h ∧ x * 2 < w ∧
    subsample m y x = m (min (y * 2) (h - 1)) (min (x * 2) (w - 1)) := by
  unfold subsampledH at hy
  unfold subsampledW at hx
  have hy2 : y * 2 < h := by omega
  have hx2 : x * 2 < w := by omega
  refine ⟨?_, hy2, hx2, ?_⟩
  · rfl
  · rw [Nat.min_eq_left (by omega), Nat.min_eq_left (by omega)]
    rfl

/-- C5 witness: the amended statement instantiated on a concrete 2x2
plane. -/
theorem c5_witness :
    subsample (fun _ _ => (3 : ℝ)) 0 0 = 3 ∧ 0 * 2 < 2 ∧ 0 * 2 < 2 ∧
    subsample (fun _ _ => (3 : ℝ)) 0 0 = 3 :=
  c5_amended (fun _ _ => (3 : ℝ)) 2 2 0 0 (by decide) (by decide)

/-- C6 counterexample: upsampling does not clamp: for a 1x1 image the
subsampled plane is empty (dimensions 0 by 0), and the single
full-resolution pixel receives the default value 0 rather than any
sample of the processed plane, here the constant 7. -/
theorem c6_counterexample :
    upsample (fun _ _ => (7 : ℝ)) (subsampledH 1) (subsampledW 1) 0 0 = 0 ∧ (0 : ℝ) ≠ 7 := by
  constructor
  · simp [upsample, subsampledH, subsampledW]
  · norm_num

/-- C6 (amended): upsampling reads the subsampled plane at (x/2, y/2)
only when both coordinates are strictly inside the subsampled
dimensions, and otherwise leaves the default 0; in particular every
pixel with y < 2*sub_h and x < 2*sub_w receives a replicated sample,
while the last row or column of an odd-dimension image receives 0. -/
theorem c6_amended (proc : ℕ → ℕ → ℝ) (sh sw y x : ℕ) :
    (y / 2 < sh → x / 2 < sw → upsample proc sh sw y x = proc (y / 2) (x / 2)) ∧
    (¬(y / 2 < sh ∧ x / 2 < sw) → upsample proc sh sw y x = 0) ∧
    (y < 2 * sh → x < 2 * sw → upsample proc sh sw y x = proc (y / 2) (x / 2)) := by
  refine ⟨fun h1 h2 => ?_, fun h3 => ?_, fun h4 h5 => ?_⟩
  · simp only [upsample, if_pos (And.intro h1 h2)]
  · simp only [upsample, if_neg h3]
  · have hy2 : y / 2 < sh := by omega
    have hx2 : x / 2 < sw := by omega
    simp only [upsample, if_pos (And.intro hy2 hx2)]

/-- C6 witness: the amended statement instantiated on a concrete
constant plane with subsampled dimensions 1 by 1. -/
theorem c6_witness :
    upsample (fun _ _ => (7 : ℝ)) 1 1 1 1 = (fun _ _ => (7 : ℝ)) (1 / 2) (1 / 2) ∧
    upsample (fun _ _ => (7 : ℝ)) 1 1 2 0 = 0 ∧
    upsample (fun _ _ => (7 : ℝ)) 1 1 1 0 = (fun _ _ => (7 : ℝ)) (1 / 2) (0 / 2) := by
  obtain ⟨a1, a2, a3⟩ := c6_amended (fun _ _ => (7 : ℝ)) 1 1 1 1
  obtain ⟨b1, b2, b3⟩ := c6_amended (fun _ _ => (7 : ℝ)) 1 1 2 0
  obtain ⟨d1, d2, d3⟩ := c6_amended (fun _ _ => (7 : ℝ)) 1 1 1 0
  exact ⟨a1 (by decide) (by decide), b2 (by decide), d3 (by decide) (by decide)⟩

/-- C2 counterexample: there is no identity passthrough at factor 0.
On the valid 1x1 image with bytes (10, 20, 30, 0) the call with factor
0 does not return the input buffer: the output alpha byte is forced to
255 while the input alpha byte is 0. -/
theorem c2_counterexample :
    compress ⟨1, 1, [10, 20, 30, 0]⟩ 0 ≠ CResult.ok ⟨1, 1, [10, 20, 30, 0]⟩ := by
  intro hEq
  have h1 : compress ⟨1, 1, [10, 20, 30, 0]⟩ 0 =
      CResult.ok (compressOk ⟨1, 1, [10, 20, 30, 0]⟩ 0) :=
    compress_eq_ok _ 0 (by decide)
  rw [h1] at hEq
  have h2 : compressOk ⟨1, 1, [10, 20, 30, 0]⟩ 0 = ⟨1, 1, [10, 20, 30, 0]⟩ :=
    CResult.ok.inj hEq
  have h3 : (compressOk ⟨1, 1, [10, 20, 30, 0]⟩ 0).data[4 * 0 + 3]? = some 255 :=
    outputData_alpha 1 1 _ _ _ 0 (by decide)
  rw [h2] at h3
  exact absurd h3 (by decide)

/-- C2 (amended): the source neither clamps the factor nor special
cases factor 0; the call with factor 0 recomputes the buffer through
the full pipeline, preserving only the dimensions and the buffer
length, and forcing every output alpha byte to 255, so the output is
not byte-identical to inputs whose alpha differs from 255. -/
theorem c2_amended (img : ImageData) (h : valid img) :
    compress img 0 = CResult.ok (compressOk img 0) ∧
    (compressOk img 0).width = img.width ∧
    (compressOk img 0).height = img.height ∧
    (compressOk img 0).data.length = img.width * img.height * 4 ∧
    ∀ p < img.width * img.height, (compressOk img 0).data[4 * p + 3]? = some 255 := by
  refine ⟨compress_eq_ok img 0 h, rfl, rfl, ?_, fun p hp => ?_⟩
  · calc (compressOk img 0).data.length
        = img.height * (img.width * 4) := outputData_length img.width img.height _ _ _
      _ = img.width * img.height * 4 := by ring
  · exact outputData_alpha img.width img.height _ _ _ p hp

/-- C2 witness: the amended statement instantiated on a concrete valid
1x1 image. -/
theorem c2_witness :
    compress ⟨1, 1, [10, 20, 30, 0]⟩ 0 = CResult.ok (compressOk ⟨1, 1, [10, 20, 30, 0]⟩ 0) ∧
    (compressOk ⟨1, 1, [10, 20, 30, 0]⟩ 0).width = 1 ∧
    (compressOk ⟨1, 1, [10, 20, 30, 0]⟩ 0).height = 1 ∧
    (compressOk ⟨1, 1, [10, 20, 30, 0]⟩ 0).data.length = 1 * 1 * 4 ∧
    ∀ p < 1 * 1, (compressOk ⟨1, 1, [10, 20, 30, 0]⟩ 0).data[4 * p + 3]? = some 255 :=
  c2_amended ⟨1, 1, [10, 20, 30, 0]⟩ (by decide)

/-- C8 (confirmed): for every valid image and every factor the returned
image keeps the input width and height and its buffer has length
exactly width*height*4; no divisibility by 8 is assumed anywhere. -/
theorem c8_dimension_preservation (img : ImageData) (q : ℚ) (h : valid img) :
    compress img q = CResult.ok (compressOk img q) ∧
    (compressOk img q).width = img.width ∧
    (compressOk img q).height = img.height ∧
    (compressOk img q).data.length = img.width * img.height * 4 := by
  refine ⟨compress_eq_ok img q h, rfl, rfl, ?_⟩
  calc (compressOk img q).data.length
      = img.height * (img.width * 4) := outputData_length img.width img.height _ _ _
    _ = img.width * img.height * 4 := by ring

/-- C8 witness: the theorem instantiated on a concrete valid 2x3 image
(dimensions not multiples of 8). -/
theorem c8_witness :
    compress ⟨2, 3, List.replicate 24 7⟩ 50 =
      CResult.ok (compressOk ⟨2, 3, List.replicate 24 7⟩ 50) ∧
    (compressOk ⟨2, 3, List.replicate 24 7⟩ 50).width = 2 ∧
    (compressOk ⟨2, 3, List.replicate 24 7⟩ 50).height = 3 ∧
    (compressOk ⟨2, 3, List.replicate 24 7⟩ 50).data.length = 2 * 3 * 4 :=
  c8_dimension_preservation ⟨2, 3, List.replicate 24 7⟩ 50 (by decide)

/-- C9 (confirmed): for every valid image and every factor, the alpha
byte of every output pixel, the byte at offset 4p+3 for pixel index p,
is exactly 255, whatever the input alpha bytes were. -/
theorem c9_alpha_forced (img : ImageData) (q : ℚ) (h : valid img) :
    compress img q = CResult.ok (compressOk img q) ∧
    ∀ p < img.width * img.height, (compressOk img q).data[4 * p + 3]? = some 255 :=
  ⟨compress_eq_ok img q h,
   fun p hp => outputData_alpha img.width img.height _ _ _ p hp⟩

/-- C9 witness: the theorem instantiated on a concrete valid 1x1 image
whose input alpha byte is 0. -/
theorem c9_witness :
    compress ⟨1, 1, [1, 2, 3, 0]⟩ 50 = CResult.ok (compressOk ⟨1, 1, [1, 2, 3, 0]⟩ 50) ∧
    ∀ p < 1 * 1, (compressOk ⟨1, 1, [1, 2, 3, 0]⟩ 50).data[4 * p + 3]? = some 255 :=
  c9_alpha_forced ⟨1, 1, [1, 2, 3, 0]⟩ 50 (by decide)

/-- C10 (confirmed): two inputs of equal dimensions and equal buffer
length that agree on every byte whose index is not 3 modulo 4 (all
non-alpha bytes) produce identical results under compress with the same
factor: the input alpha channel influences no output byte. -/
theorem c10_alpha_independent (im1 im2 : ImageData) (q : ℚ)
    (hw : im1.width = im2.width) (hh : im1.height = im2.height)
    (hl : im1.data.length = im2.data.length)
    (hd : ∀ i < im1.data.length, i % 4 ≠ 3 → im1.data[i]? = im2.data[i]?) :
    compress im1 q = compress im2 q := by
  obtain ⟨w1, h1, d1⟩ := im1
  obtain ⟨w2, h2, d2⟩ := im2
  dsimp only at hw hh hl hd ⊢
  subst hw
  subst hh
  have hget : ∀ i, i % 4 ≠ 3 → d1.getD i 0 = d2.getD i 0 := by
    intro i hi
    rcases Nat.lt_or_ge i d1.length with hlt | hge
    · rw [List.getD_eq_getElem?_getD, List.getD_eq_getElem?_getD, hd i hlt hi]
    · rw [List.getD_eq_default _ _ hge, List.getD_eq_default _ _ (by omega)]
  have hY : yMatrix d1 w1 = yMatrix d2 w1 := by
    funext y x
    simp only [yMatrix]
    rw [hget ((y * w1 + x) * 4) (by omega), hget ((y * w1 + x) * 4 + 1) (by omega),
      hget ((y * w1 + x) * 4 + 2) (by omega)]
  have hCb : cbMatrix d1 w1 = cbMatrix d2 w1 := by
    funext y x
    simp only [cbMatrix]
    rw [hget ((y * w1 + x) * 4) (by omega), hget ((y * w1 + x) * 4 + 1) (by omega),
      hget ((y * w1 + x) * 4 + 2) (by omega)]
  have hCr : crMatrix d1 w1 = crMatrix d2 w1 := by
    funext y x
    simp only [crMatrix]
    rw [hget ((y * w1 + x) * 4) (by omega), hget ((y * w1 + x) * 4 + 1) (by omega),
      hget ((y * w1 + x) * 4 + 2) (by omega)]
  have hOk : compressOk ⟨w1, h1, d1⟩ q = compressOk ⟨w1, h1, d2⟩ q := by
    unfold compressOk
    dsimp only
    rw [hY, hCb, hCr]
  have hrb : readsInBounds (⟨w1, h1, d1⟩ : ImageData) ↔
      readsInBounds (⟨w1, h1, d2⟩ : ImageData) := by
    unfold readsInBounds
    dsimp only
    rw [hl]
  by_cases hr : readsInBounds (⟨w1, h1, d1⟩ : ImageData)
  · unfold compress
    rw [if_pos hr, if_pos (hrb.mp hr), hOk]
  · unfold compress
    rw [if_neg hr, if_neg (fun hc => hr (hrb.mpr hc))]

/-- C7 (confirmed over the real-number model of the f32 arithmetic):
the forward transform computes D[u][v] = 0.25 Cu Cv times the double
sum of B[x][y] cos((2x+1)u pi/16) cos((2y+1)v pi/16) with Cu equal to
1 over the square root of 2 at index 0 and to 1 otherwise; each
coefficient is mapped to round(D/table)*table; and the inverse
transform uses the same cosine basis and normalization constants and is
the exact mathematical inverse of the forward transform on the 8x8
index range. -/
theorem c7_transform (B D : ℕ → ℕ → ℝ) (t : ℕ → ℕ → ℕ) (u v x y : ℕ)
    (hx : x < 8) (hy : y < 8) :
    dct2d B u v = 0.25 * cc u * cc v *
      ∑ a in Finset.range 8, ∑ b in Finset.range 8, B a b * dctCos a u * dctCos b v ∧
    cc 0 = 1 / Real.sqrt 2 ∧ cc (u + 1) = 1 ∧
    quantDequant t D u v = (rustRound (D u v / (t u v : ℝ)) : ℝ) * (t u v : ℝ) ∧
    idct2d D x y = 0.25 * ∑ a in Finset.range 8, ∑ b in Finset.range 8,
      cc a * cc b * D a b * dctCos x a * dctCos y b ∧
    idct2d (dct2d B) x y = B x y := by
  refine ⟨rfl, rfl, ?_, rfl, rfl, idct_dct_inv B x y hx hy⟩
  unfold cc
  rw [if_neg (Nat.succ_ne_zero u)]

/-- C7 witness: the theorem instantiated on the constant plane 3, the
constant coefficient block 1 and the all-ones table at concrete
indices. -/
theorem c7_witness :
    dct2d (fun _ _ => (3 : ℝ)) 0 0 = 0.25 * cc 0 * cc 0 *
      ∑ a in Finset.range 8, ∑ b in Finset.range 8, (3 : ℝ) * dctCos a 0 * dctCos b 0 ∧
    cc 0 = 1 / Real.sqrt 2 ∧ cc (0 + 1) = 1 ∧
    quantDequant (fun _ _ => 1) (fun _ _ => (1 : ℝ)) 0 0 =
      (rustRound ((1 : ℝ) / ((1 : ℕ) : ℝ)) : ℝ) * ((1 : ℕ) : ℝ) ∧
    idct2d (fun _ _ => (1 : ℝ)) 0 0 = 0.25 * ∑ a in Finset.range 8, ∑ b in Finset.range 8,
      cc a * cc b * (1 : ℝ) * dctCos 0 a * dctCos 0 b ∧
    idct2d (dct2d (fun _ _ => (3 : ℝ))) 0 0 = 3 :=
  c7_transform (fun _ _ => (3 : ℝ)) (fun _ _ => (1 : ℝ)) (fun _ _ => 1) 0 0 0 0
    (by decide) (by decide)

/-- C10 witness: two concrete 1x1 images differing only in the alpha
byte compress to the same result. -/
theorem c10_witness :
    compress ⟨1, 1, [9, 9, 9, 0]⟩ 7 = compress ⟨1, 1, [9, 9, 9, 200]⟩ 7 :=
  c10_alpha_independent ⟨1, 1, [9, 9, 9, 0]⟩ ⟨1, 1, [9, 9, 9, 200]⟩ 7
    (by decide) (by decide) (by decide) (by decide)

end Claims

end CompressJpeg
